import Mathlib

/-!
Verification of the wordle-bot repository (src/bot/wordle_bot.py,
src/game/wordle_game.py, src/game/wordle.py) against its specification.

Words are modelled as lists of characters, Python sets of words as lists
(making the otherwise unspecified iteration order explicit), Python dicts
as association lists, and floating-point scores as exact rationals.
-/

namespace Wordle

/-- `Color` from src/game/wordle_game.py (and identically src/game/wordle.py). -/
inductive Color where
  | GREEN
  | YELLOW
  | GRAY
deriving DecidableEq, Repr

abbrev Word := List Char

/-- `str.upper()` applied letterwise. -/
def upperW (w : Word) : Word := w.map Char.toUpper

/-- Python `lst[lst.index(c)] = None`: blank the first occurrence of `some c`. -/
def consume (c : Char) : List (Option Char) → List (Option Char)
  | [] => []
  | x :: xs => if x = some c then none :: xs else x :: consume c xs

/-- First pass of `WordleGame._get_feedback` in src/game/wordle_game.py
(lines 83-87): walk the positions in order; on an exact match append a GREEN
entry and blank both the guess and the target position.  Returns the list of
GREEN entries (in position order), the guess with matched positions blanked,
and the target with matched positions blanked.  (Python would raise on a
target shorter than the guess; the leftover-guess case below is unreachable
for the equal-length words every claim is about.) -/
def pass1 : List Char → List Char → List (Char × Color) × List (Option Char) × List (Option Char)
  | [], t => ([], [], t.map some)
  | g, [] => ([], g.map some, [])
  | a :: g, b :: t =>
    let r := pass1 g t
    if a = b then ((a, Color.GREEN) :: r.1, none :: r.2.1, none :: r.2.2)
    else (r.1, some a :: r.2.1, some b :: r.2.2)

/-- Second pass of `WordleGame._get_feedback` in src/game/wordle_game.py
(lines 89-95): for each unresolved guess position, in order, mark YELLOW and
consume a copy from the remaining target if the letter is still available,
else mark GRAY. -/
def pass2 : List (Option Char) → List (Option Char) → List (Char × Color)
  | [], _ => []
  | none :: g, t => pass2 g t
  | some c :: g, t =>
    if some c ∈ t then (c, Color.YELLOW) :: pass2 g (consume c t)
    else (c, Color.GRAY) :: pass2 g t

/-- `WordleGame._get_feedback(guess)` of src/game/wordle_game.py (lines 74-97),
with the instance field `self.target` made an explicit argument.  Note the
Python builds the list by appending GREEN entries during the first pass and
the YELLOW/GRAY entries during the second, so exact matches come first. -/
def get_feedback (guess target : List Char) : List (Char × Color) :=
  let r := pass1 guess target
  r.1 ++ pass2 r.2.1 r.2.2

/-- First pass of `WordleGame._get_feedback` in src/game/wordle.py
(lines 79-85).  Unlike the src/game/wordle_game.py variant it appends a
placeholder `(letter, None)` for every non-matching position, so the feedback
list stays in position order.  Returns the preliminary feedback, the guess
with matched positions blanked, and the target with matched positions
blanked. -/
def pass1cli : List Char → List Char → List (Char × Option Color) × List (Option Char) × List (Option Char)
  | [], t => ([], [], t.map some)
  | g, [] => (g.map (fun c => (c, (none : Option Color))), g.map some, [])
  | a :: g, b :: t =>
    let r := pass1cli g t
    if a = b then ((a, some Color.GREEN) :: r.1, none :: r.2.1, none :: r.2.2)
    else ((a, (none : Option Color)) :: r.1, some a :: r.2.1, some b :: r.2.2)

/-- Second pass of `WordleGame._get_feedback` in src/game/wordle.py
(lines 87-93): fill each placeholder in place with YELLOW (consuming a copy
from the remaining target) or GRAY; resolved (GREEN) entries pass through.
The blanked guess and the preliminary feedback are walked together, as the
Python indexes both by the same `i`. -/
def pass2cli : List (Option Char) → List (Char × Option Color) → List (Option Char) → List (Char × Color)
  | none :: g, (a, c) :: fb, t => (a, c.getD Color.GREEN) :: pass2cli g fb t
  | some x :: g, _ :: fb, t =>
    if some x ∈ t then (x, Color.YELLOW) :: pass2cli g fb (consume x t)
    else (x, Color.GRAY) :: pass2cli g fb t
  | _, _, _ => []

/-- `WordleGame._get_feedback(guess)` of src/game/wordle.py (lines 70-95),
with `self.target` made an explicit argument. -/
def get_feedback_cli (guess target : List Char) : List (Char × Color) :=
  let r := pass1cli guess target
  pass2cli r.2.1 r.1 r.2.2

/-- `WordleBot._get_feedback(guess, target)` of src/bot/wordle_bot.py
(lines 55-66): upper-cases both words and delegates to the
src/game/wordle_game.py feedback routine through the shared game helper. -/
def bot_get_feedback (guess target : Word) : List (Char × Color) :=
  get_feedback (upperW guess) (upperW target)

/-- Green phase of `WordleBot._matches_feedback` (src/bot/wordle_bot.py,
lines 85-90): for the `i`-th feedback entry, if it is GREEN require
`word[i] == guess[i]` and blank `word[i]`.  `none` models `return False`. -/
def greenPass (guess : List Char) : ℕ → List (Char × Color) → List (Option Char) → Option (List (Option Char))
  | _, [], wl => some wl
  | i, (_, color) :: fb, wl =>
    if color = Color.GREEN then
      match guess.get? i with
      | none => none
      | some c =>
        if wl.getD i none = some c then greenPass guess (i + 1) fb (wl.set i none)
        else none
    else greenPass guess (i + 1) fb wl

/-- Yellow phase of `WordleBot._matches_feedback` (src/bot/wordle_bot.py,
lines 92-102): for a YELLOW entry at `i` require `guess[i]` to occur in the
remaining word but not at position `i`, then blank its first occurrence. -/
def yellowPass (guess : List Char) : ℕ → List (Char × Color) → List (Option Char) → Option (List (Option Char))
  | _, [], wl => some wl
  | i, (_, color) :: fb, wl =>
    if color = Color.YELLOW then
      match guess.get? i with
      | none => none
      | some c =>
        if some c ∈ wl then
          if wl.getD i none = some c then none
          else yellowPass guess (i + 1) fb (consume c wl)
        else none
    else yellowPass guess (i + 1) fb wl

/-- Gray phase of `WordleBot._matches_feedback` (src/bot/wordle_bot.py,
lines 104-108): a GRAY entry at `i` requires `guess[i]` to be absent from the
remaining word. -/
def grayPass (guess : List Char) : ℕ → List (Char × Color) → List (Option Char) → Bool
  | _, [], _ => true
  | i, (_, color) :: fb, wl =>
    if color = Color.GRAY then
      match guess.get? i with
      | none => false
      | some c => if some c ∈ wl then false else grayPass guess (i + 1) fb wl
    else grayPass guess (i + 1) fb wl

/-- `WordleBot._matches_feedback(word, guess, feedback)` of
src/bot/wordle_bot.py (lines 78-110): the three passes run in sequence over
the same feedback list, threading the progressively blanked copy of `word`. -/
def matches_feedback (word guess : List Char) (fb : List (Char × Color)) : Bool :=
  match greenPass guess 0 fb (word.map some) with
  | none => false
  | some wl =>
    match yellowPass guess 0 fb wl with
    | none => false
    | some wl2 => grayPass guess 0 fb wl2

/-- `WordleBot._filter_words(words, guess, feedback)` of src/bot/wordle_bot.py
(lines 68-76): keep the words that match the feedback. -/
def filter_words (words : List Word) (guess : Word) (fb : List (Char × Color)) : List Word :=
  words.filter (fun w => matches_feedback w guess fb)

def craneW : Word := "CRANE".toList
def slateW : Word := "SLATE".toList
def speedW : Word := "SPEED".toList
def eraseW : Word := "ERASE".toList

/-- Deduplication keeping the first occurrence, with the set of already seen
elements as accumulator: the `seen` trick of src/bot/wordle_bot.py
(lines 200-201). -/
def dedupFirstAux {α : Type} [DecidableEq α] : List α → List α → List α
  | _, [] => []
  | seen, w :: ws => if w ∈ seen then dedupFirstAux seen ws else w :: dedupFirstAux (w :: seen) ws

/-- `[w for w in candidates if not (w in seen or seen.add(w))]`:
remove duplicates while preserving (first-occurrence) order. -/
def dedupFirst {α : Type} [DecidableEq α] (l : List α) : List α := dedupFirstAux [] l

/-- `WordleBot._calculate_expected_remaining(guess, possible_words)` of
src/bot/wordle_bot.py (lines 134-155): bucket the possible targets by the
feedback they would produce against `guess` and sum `(c/n) * c` over the
buckets.  The Python float arithmetic is modelled exactly over `ℚ`. -/
def calculate_expected_remaining (guess : Word) (possible : List Word) : ℚ :=
  if possible = [] then 0
  else
    let fbs := possible.map (fun t => bot_get_feedback guess t)
    let total : ℚ := (possible.length : ℚ)
    ((dedupFirst fbs).map (fun f => ((fbs.count f : ℚ) / total) * (fbs.count f : ℚ))).sum

/-- `WordleBot._calculate_entropy(guess, possible_words)` of
src/bot/wordle_bot.py (lines 112-132).  `math.log2` is transcendental, so the
logarithm is abstracted as a parameter `lg`; every property claimed about
entropy (the empty-set case) is independent of it. -/
def calculate_entropy (lg : ℚ → ℚ) (guess : Word) (possible : List Word) : ℚ :=
  if possible = [] then 0
  else
    let fbs := possible.map (fun t => bot_get_feedback guess t)
    let total : ℚ := (possible.length : ℚ)
    ((dedupFirst fbs).map (fun f =>
      let p := (fbs.count f : ℚ) / total
      if 0 < p then -(p * lg p) else 0)).sum

/-- The score of a candidate guess in `WordleBot._choose_optimal_guess`
(src/bot/wordle_bot.py, lines 207-213): expected remaining words plus a
`0.5` penalty for guesses that cannot themselves be the answer. -/
def botScore (possible : List Word) (w : Word) : ℚ :=
  calculate_expected_remaining w possible + (if w ∈ possible then 0 else 1 / 2)

/-- The candidate pool of `WordleBot._choose_optimal_guess`
(src/bot/wordle_bot.py, lines 193-201): the possible words alone when at most
two remain, otherwise possible words followed by all valid guesses,
deduplicated keeping first occurrences. -/
def candidatePool (possible valid : List Word) : List Word :=
  if possible.length ≤ 2 then possible else dedupFirst (possible ++ valid)

/-- The scoring loop of `WordleBot._choose_optimal_guess`
(src/bot/wordle_bot.py, lines 203-217).  The accumulator is the current
`(best_guess, best_score)` pair; `none` models the initial
`(None, float("inf"))`, which every finite score strictly beats. -/
def scanBest (score : Word → ℚ) : Option (Word × ℚ) → List Word → Option (Word × ℚ)
  | acc, [] => acc
  | acc, w :: ws =>
    match acc with
    | none => scanBest score (some (w, score w)) ws
    | some (bw, bs) =>
      if score w < bs then scanBest score (some (w, score w)) ws
      else scanBest score (some (bw, bs)) ws

/-- `WordleBot._choose_optimal_guess(possible_words, valid_guesses)` of
src/bot/wordle_bot.py (lines 171-225), spinner omitted (cosmetic).  A single
possible word is returned immediately; otherwise the loop returns the
running best, with `best_guess or candidates[0]` modelled by the fallback
branch (the empty-pool case, where Python would raise, yields `[]`). -/
def choose_optimal_guess (possible valid : List Word) : Word :=
  if possible.length = 1 then possible.headD []
  else
    match scanBest (botScore possible) none (candidatePool possible valid) with
    | some p => p.1
    | none => (candidatePool possible valid).headD []

/-- The state of `WordleGame` from src/game/wordle_game.py (lines 40-61):
dictionaries are association lists, Python sets are lists. -/
structure GameState where
  target : Word
  valid_guesses : List Word
  attempts : ℕ
  max_attempts : ℕ
  guessed_letters : List (Char × Color)
  all_guesses : List (List (Char × Color))
  won : Bool
  hard_mode : Bool
  required_green_positions : List (ℕ × Char)
  required_yellow_letters : List Char
  yellow_positions : List (Char × List ℕ)
deriving DecidableEq, Repr

/-- Python dict assignment `d[k] = v` on an (insertion-ordered) association
list: overwrite in place, or append a fresh key. -/
def set_key {α β : Type} [DecidableEq α] (k : α) (v : β) : List (α × β) → List (α × β)
  | [] => [(k, v)]
  | (a, b) :: rest => if a = k then (k, v) :: rest else (a, b) :: set_key k v rest

/-- Python `set.add` on a list kept duplicate-free. -/
def insert_absent {α : Type} [DecidableEq α] (x : α) (l : List α) : List α :=
  if x ∈ l then l else l ++ [x]

/-- Python `str.strip()`: drop leading and trailing whitespace. -/
def py_strip (l : List Char) : List Char :=
  ((l.dropWhile Char.isWhitespace).reverse.dropWhile Char.isWhitespace).reverse

/-- `WordleGame._is_valid_hard_mode(guess)` of src/game/wordle_game.py
(lines 111-124). -/
def is_valid_hard_mode (s : GameState) (guess : List Char) : Bool :=
  s.required_green_positions.all (fun pc => guess.getD pc.1 ' ' == pc.2) &&
  s.required_yellow_letters.all (fun c =>
    decide (c ∈ guess) &&
      (match s.yellow_positions.lookup c with
       | none => true
       | some ps => ps.all (fun p => !(guess.getD p ' ' == c))))

/-- `WordleGame.is_valid_guess(guess)` of src/game/wordle_game.py
(lines 99-109). -/
def is_valid_guess (s : GameState) (guess : List Char) : Bool :=
  if guess.length ≠ 5 then false
  else if !(guess.all Char.isAlpha) then false
  else if upperW guess ∉ s.valid_guesses then false
  else if s.hard_mode then is_valid_hard_mode s (upperW guess)
  else true

/-- One iteration of the `enumerate(feedback)` loop of
`WordleGame._update_keyboard_state` (src/game/wordle_game.py,
lines 151-163): record the letter on the keyboard and, in hard mode,
accumulate the green/yellow constraints. -/
def kb_step (i : ℕ) (letter : Char) (color : Color) (s : GameState) : GameState :=
  let lu := Char.toUpper letter
  let s1 :=
    if (s.guessed_letters.lookup lu).isNone || color == Color.GREEN then
      { s with guessed_letters := set_key lu color s.guessed_letters }
    else s
  if s1.hard_mode then
    if color == Color.GREEN then
      { s1 with required_green_positions := set_key i lu s1.required_green_positions }
    else if color == Color.YELLOW then
      { s1 with
        required_yellow_letters := insert_absent lu s1.required_yellow_letters,
        yellow_positions :=
          set_key lu (insert_absent i ((s1.yellow_positions.lookup lu).getD []))
            s1.yellow_positions }
    else s1
  else s1

/-- `WordleGame._update_keyboard_state(feedback)` of src/game/wordle_game.py
(lines 149-163), with the `enumerate` index carried explicitly. -/
def update_kb : ℕ → List (Char × Color) → GameState → GameState
  | _, [], s => s
  | i, (letter, color) :: fb, s => update_kb (i + 1) fb (kb_step i letter color s)

/-- The accepted-guess tail of `WordleGame.make_guess` (src/game/wordle_game.py,
lines 259-267): record feedback, update the keyboard, set `won`, bump
`attempts`.  `g` is already stripped and upper-cased. -/
def make_guess_accept (s : GameState) (g : List Char) : GameState :=
  let fb := get_feedback g s.target
  let s1 := { s with all_guesses := s.all_guesses ++ [fb] }
  let s2 := update_kb 0 fb s1
  let s3 := if g = s.target then { s2 with won := true } else s2
  { s3 with attempts := s3.attempts + 1 }

/-- `WordleGame.make_guess(guess)` of src/game/wordle_game.py
(lines 244-267): strip and upper-case, validate (returning `False` with the
state untouched on failure), then process the accepted guess. -/
def make_guess (s : GameState) (guess : List Char) : Bool × GameState :=
  let g := upperW (py_strip guess)
  if !(is_valid_guess s g) then (false, s)
  else (true, make_guess_accept s g)

/-- `WordleGame.is_won()` of src/game/wordle_game.py (lines 269-271). -/
def is_won (s : GameState) : Bool := s.won

/-- `WordleGame.is_game_over()` of src/game/wordle_game.py (lines 273-275). -/
def is_game_over (s : GameState) : Bool := s.won || decide (s.max_attempts ≤ s.attempts)

/-- The `while` loop of `WordleBot.solve_with_game(game)` of
src/bot/wordle_bot.py (lines 512-552), with printing dropped.  `count` is
`len(guesses)`; note the Python appends the chosen guess *before* asking the
game to accept it.  The loop needs no fuel in Python (every accepted guess
bumps `attempts`, bounded by `max_attempts`); the explicit `fuel` makes the
recursion structural and any `fuel ≥ max_attempts - attempts` reproduces the
Python run. -/
def solve_with_game_loop (valid : List Word) : ℕ → List Word → GameState → ℕ → ℕ
  | 0, _, _, count => count
  | fuel + 1, possible, game, count =>
    if is_game_over game then count
    else
      let guess := choose_optimal_guess possible valid
      let count2 := count + 1
      match make_guess game guess with
      | (false, _) => count2
      | (true, game2) =>
        let fb := game2.all_guesses.getLastD []
        if is_won game2 then count2
        else
          let possible2 := filter_words possible guess fb
          if possible2 = [] then count2
          else solve_with_game_loop valid fuel possible2 game2 count2

/-- `WordleBot.solve_with_game(game)` of src/bot/wordle_bot.py
(lines 497-552): start from the answer vocabulary `la_words` and the game's
valid-guess set, with zero guesses made. -/
def solve_with_game (fuel : ℕ) (la_words : List Word) (game : GameState) : ℕ :=
  solve_with_game_loop game.valid_guesses fuel la_words game 0

/-- A game whose accepted vocabulary is empty: it rejects every guess. -/
def rejectAllGame : GameState where
  target := slateW
  valid_guesses := []
  attempts := 0
  max_attempts := 6
  guessed_letters := []
  all_guesses := []
  won := false
  hard_mode := false
  required_green_positions := []
  required_yellow_letters := []
  yellow_positions := []

/-- A fresh game that accepts only the answer vocabulary `[SLATE, CRANE]`. -/
def smallGame : GameState where
  target := slateW
  valid_guesses := [slateW, craneW]
  attempts := 0
  max_attempts := 6
  guessed_letters := []
  all_guesses := []
  won := false
  hard_mode := false
  required_green_positions := []
  required_yellow_letters := []
  yellow_positions := []

/-- The first element of `pool` attaining the minimal score: the guess the
spec's selection policy (spec §4.4) designates — strictly smaller score than
everything before it, no larger than everything after it. -/
def IsFirstMin (score : Word → ℚ) (pool : List Word) (g : Word) : Prop :=
  ∃ l1 l2, pool = l1 ++ g :: l2 ∧ (∀ w ∈ l1, score g < score w) ∧ (∀ w ∈ l2, score g ≤ score w)

/-- The exact-match entries of the spec's positional classification
(spec §4.1): one GREEN pair for every position where guess and target
coincide, in position order. -/
def zipGreens (g t : List Char) : List (Char × Color) :=
  (g.zip t).filterMap (fun p => if p.1 = p.2 then some (p.1, Color.GREEN) else none)

/-- The invariant linking the blanked guess and the preliminary feedback
produced by the first pass of src/game/wordle.py: position `i` of the guess
is blanked exactly when entry `i` of the feedback is already resolved GREEN,
and an unresolved entry carries the guess letter. -/
inductive Aligned : List (Option Char) → List (Char × Option Color) → Prop where
  | nil : Aligned [] []
  | green (a : Char) {g : List (Option Char)} {fb : List (Char × Option Color)} :
      Aligned g fb → Aligned (none :: g) ((a, some Color.GREEN) :: fb)
  | pending (a : Char) {g : List (Option Char)} {fb : List (Char × Option Color)} :
      Aligned g fb → Aligned (some a :: g) ((a, none) :: fb)

/-! ### Counting lemmas for the duplicate-letter discipline of `get_feedback` -/

theorem pass2_some_eq (c : Char) (g t : List (Option Char)) :
    pass2 (some c :: g) t =
      if some c ∈ t then (c, Color.YELLOW) :: pass2 g (consume c t)
      else (c, Color.GRAY) :: pass2 g t := rfl

theorem pass1_greens_cons (a b : Char) (g t : List Char) :
    (pass1 (a :: g) (b :: t)).1 =
      if a = b then (a, Color.GREEN) :: (pass1 g t).1 else (pass1 g t).1 := by
  by_cases hab : a = b <;> simp [pass1, hab]

theorem pass1_guess_cons (a b : Char) (g t : List Char) :
    (pass1 (a :: g) (b :: t)).2.1 =
      if a = b then none :: (pass1 g t).2.1 else some a :: (pass1 g t).2.1 := by
  by_cases hab : a = b <;> simp [pass1, hab]

theorem pass1_target_cons (a b : Char) (g t : List Char) :
    (pass1 (a :: g) (b :: t)).2.2 =
      if a = b then none :: (pass1 g t).2.2 else some b :: (pass1 g t).2.2 := by
  by_cases hab : a = b <;> simp [pass1, hab]

theorem consume_count_self (c : Char) : ∀ t : List (Option Char), some c ∈ t →
    (consume c t).count (some c) + 1 = t.count (some c) := by
  intro t
  induction t with
  | nil => simp
  | cons x xs ih =>
    intro h
    by_cases hx : x = some c
    · subst hx
      simp [consume, List.count_cons]
    · rcases List.mem_cons.mp h with h1 | h2
      · exact absurd h1.symm hx
      · simp only [consume, if_neg hx, List.count_cons]
        have h3 := ih h2
        simp only [beq_iff_eq]
        rw [if_neg hx]
        omega

theorem consume_count_le (c l : Char) : ∀ t : List (Option Char),
    (consume c t).count (some l) ≤ t.count (some l) := by
  intro t
  induction t with
  | nil => simp [consume]
  | cons y ys ih =>
    by_cases hy : y = some c
    · subst hy
      simp [consume, List.count_cons]
    · simp only [consume, if_neg hy, List.count_cons]
      omega

theorem pass2_count_yellow (l : Char) : ∀ (g t : List (Option Char)),
    (pass2 g t).count (l, Color.YELLOW) ≤ t.count (some l) := by
  intro g
  induction g with
  | nil => intro t; simp [pass2]
  | cons x g ih =>
    intro t
    cases x with
    | none => simpa [pass2] using ih t
    | some c =>
      rw [pass2_some_eq]
      by_cases hm : some c ∈ t
      · rw [if_pos hm, List.count_cons]
        by_cases hcl : c = l
        · subst hcl
          have h1 := ih (consume c t)
          have h2 := consume_count_self c t hm
          simp only [beq_iff_eq, if_true]
          omega
        · have h1 := ih (consume c t)
          have h2 := consume_count_le c l t
          have hne : ((c, Color.YELLOW) : Char × Color) ≠ (l, Color.YELLOW) := by
            simp [hcl]
          simp only [beq_iff_eq]
          rw [if_neg hne]
          omega
      · rw [if_neg hm, List.count_cons]
        have hne : ((c, Color.GRAY) : Char × Color) ≠ (l, Color.YELLOW) := by simp
        simp only [beq_iff_eq]
        rw [if_neg hne]
        simpa using ih t

theorem pass2_no_green : ∀ (g t : List (Option Char)) (p : Char × Color),
    p ∈ pass2 g t → p.2 ≠ Color.GREEN := by
  intro g
  induction g with
  | nil => intro t p hp; simp [pass2] at hp
  | cons x g ih =>
    intro t p hp
    cases x with
    | none => exact ih t p (by simpa [pass2] using hp)
    | some c =>
      by_cases hm : some c ∈ t
      · simp only [pass2, if_pos hm, List.mem_cons] at hp
        rcases hp with rfl | hp
        · simp
        · exact ih _ p hp
      · simp only [pass2, if_neg hm, List.mem_cons] at hp
        rcases hp with rfl | hp
        · simp
        · exact ih _ p hp

theorem count_some_map (l : Char) : ∀ t : List Char,
    (t.map some).count (some l) = t.count l := by
  intro t
  induction t with
  | nil => simp
  | cons b t ih =>
    simp only [List.map_cons, List.count_cons, ih]
    by_cases hb : b = l
    · subst hb; simp
    · have h1 : (some b : Option Char) ≠ some l := by simp [hb]
      simp only [beq_iff_eq, if_neg hb, if_neg h1]

theorem pass1_count (l : Char) : ∀ (g t : List Char),
    (pass1 g t).1.count (l, Color.GREEN) + (pass1 g t).2.2.count (some l) = t.count l := by
  intro g
  induction g with
  | nil => intro t; simpa [pass1] using count_some_map l t
  | cons a g ih =>
    intro t
    cases t with
    | nil => simp [pass1]
    | cons b t =>
      have h1 := ih t
      rw [pass1_greens_cons, pass1_target_cons, List.count_cons]
      by_cases hab : a = b
      · subst hab
        rw [if_pos rfl, if_pos rfl, List.count_cons, List.count_cons]
        have hno : (none : Option Char) ≠ some l := by simp
        by_cases hal : a = l
        · subst hal
          simp only [beq_iff_eq, if_true]
          rw [if_neg hno]
          omega
        · have hg : ((a, Color.GREEN) : Char × Color) ≠ (l, Color.GREEN) := by simp [hal]
          simp only [beq_iff_eq]
          rw [if_neg hg, if_neg hno, if_neg hal]
          omega
      · rw [if_neg hab, if_neg hab, List.count_cons]
        by_cases hbl : b = l
        · subst hbl
          simp only [beq_iff_eq, if_true]
          omega
        · have hsb : (some b : Option Char) ≠ some l := by simp [hbl]
          simp only [beq_iff_eq]
          rw [if_neg hsb, if_neg hbl]
          omega

theorem pass1_all_green : ∀ (g t : List Char) (p : Char × Color),
    p ∈ (pass1 g t).1 → p.2 = Color.GREEN := by
  intro g
  induction g with
  | nil => intro t p hp; simp [pass1] at hp
  | cons a g ih =>
    intro t p hp
    cases t with
    | nil => simp [pass1] at hp
    | cons b t =>
      rw [pass1_greens_cons] at hp
      by_cases hab : a = b
      · rw [if_pos hab, List.mem_cons] at hp
        rcases hp with rfl | hp
        · rfl
        · exact ih t p hp
      · rw [if_neg hab] at hp
        exact ih t p hp

/-! ### Structure of `get_feedback`: greens first, then the rest in order -/

theorem pass2_length : ∀ (g t : List (Option Char)),
    (pass2 g t).length = g.countP (fun x => x.isSome) := by
  intro g
  induction g with
  | nil => intro t; simp [pass2]
  | cons x g ih =>
    intro t
    cases x with
    | none => simp [pass2, ih, List.countP_cons]
    | some c =>
      rw [pass2_some_eq]
      by_cases hm : some c ∈ t
      · rw [if_pos hm]; simp [List.countP_cons, ih]
      · rw [if_neg hm]; simp [List.countP_cons, ih]

theorem pass1_length : ∀ (g t : List Char),
    (pass1 g t).1.length + (pass1 g t).2.1.countP (fun x => x.isSome) = g.length := by
  intro g
  induction g with
  | nil => intro t; simp [pass1]
  | cons a g ih =>
    intro t
    cases t with
    | nil => simp [pass1, List.countP_map, Function.comp_def, List.countP_true]
    | cons b t =>
      have h1 := ih t
      rw [pass1_greens_cons, pass1_guess_cons]
      by_cases hab : a = b
      · rw [if_pos hab, if_pos hab]
        simp only [List.length_cons, List.countP_cons, Option.isSome_none,
          Bool.false_eq_true, if_false]
        omega
      · rw [if_neg hab, if_neg hab]
        simp only [List.length_cons, List.countP_cons, Option.isSome_some, if_true]
        omega

theorem pass1_greens_zip : ∀ (g t : List Char), (pass1 g t).1 = zipGreens g t := by
  intro g
  induction g with
  | nil => intro t; simp [pass1, zipGreens]
  | cons a g ih =>
    intro t
    cases t with
    | nil => simp [pass1, zipGreens]
    | cons b t =>
      rw [pass1_greens_cons]
      by_cases hab : a = b
      · rw [if_pos hab]
        simp [zipGreens, List.filterMap_cons, hab, ih]
      · rw [if_neg hab]
        simp [zipGreens, List.filterMap_cons, hab, ih]

/-! ### The two feedback routines: relation lemmas -/

theorem pass1cli_fb_cons (a b : Char) (g t : List Char) :
    (pass1cli (a :: g) (b :: t)).1 =
      if a = b then (a, some Color.GREEN) :: (pass1cli g t).1
      else (a, (none : Option Color)) :: (pass1cli g t).1 := by
  by_cases hab : a = b <;> simp [pass1cli, hab]

theorem pass1cli_guess_cons (a b : Char) (g t : List Char) :
    (pass1cli (a :: g) (b :: t)).2.1 =
      if a = b then none :: (pass1cli g t).2.1 else some a :: (pass1cli g t).2.1 := by
  by_cases hab : a = b <;> simp [pass1cli, hab]

theorem pass1cli_target_cons (a b : Char) (g t : List Char) :
    (pass1cli (a :: g) (b :: t)).2.2 =
      if a = b then none :: (pass1cli g t).2.2 else some b :: (pass1cli g t).2.2 := by
  by_cases hab : a = b <;> simp [pass1cli, hab]

theorem aligned_map : ∀ l : List Char,
    Aligned (l.map some) (l.map (fun c => (c, (none : Option Color)))) := by
  intro l
  induction l with
  | nil => exact Aligned.nil
  | cons c l ih => exact Aligned.pending c ih

theorem aligned_pass1cli : ∀ (g t : List Char),
    Aligned (pass1cli g t).2.1 (pass1cli g t).1 := by
  intro g
  induction g with
  | nil =>
    intro t
    have h1 : (pass1cli [] t).2.1 = [] := by simp [pass1cli]
    have h2 : (pass1cli [] t).1 = [] := by simp [pass1cli]
    rw [h1, h2]
    exact Aligned.nil
  | cons a g ih =>
    intro t
    cases t with
    | nil =>
      have h1 : (pass1cli (a :: g) []).2.1 = (a :: g).map some := by simp [pass1cli]
      have h2 : (pass1cli (a :: g) []).1 = (a :: g).map (fun c => (c, (none : Option Color))) := by
        simp [pass1cli]
      rw [h1, h2]
      exact aligned_map (a :: g)
    | cons b t =>
      rw [pass1cli_guess_cons, pass1cli_fb_cons]
      by_cases hab : a = b
      · rw [if_pos hab, if_pos hab]
        exact Aligned.green a (ih t)
      · rw [if_neg hab, if_neg hab]
        exact Aligned.pending a (ih t)

theorem pass1_eq_cli : ∀ (g t : List Char),
    (pass1 g t).1 = (pass1cli g t).1.filterMap (fun p => (p.2).map (fun col => (p.1, col)))
    ∧ (pass1 g t).2.1 = (pass1cli g t).2.1
    ∧ (pass1 g t).2.2 = (pass1cli g t).2.2 := by
  intro g
  induction g with
  | nil => intro t; simp [pass1, pass1cli]
  | cons a g ih =>
    intro t
    cases t with
    | nil =>
      refine ⟨?_, by simp [pass1, pass1cli], by simp [pass1, pass1cli]⟩
      simp [pass1, pass1cli, List.filterMap_map, Function.comp_def]
    | cons b t =>
      have h := ih t
      rw [pass1_greens_cons, pass1_guess_cons, pass1_target_cons,
        pass1cli_fb_cons, pass1cli_guess_cons, pass1cli_target_cons]
      by_cases hab : a = b
      · rw [if_pos hab, if_pos hab, if_pos hab, if_pos hab, if_pos hab, if_pos hab]
        refine ⟨?_, by rw [h.2.1], by rw [h.2.2]⟩
        simp [List.filterMap_cons, h.1]
      · rw [if_neg hab, if_neg hab, if_neg hab, if_neg hab, if_neg hab, if_neg hab]
        refine ⟨?_, by rw [h.2.1], by rw [h.2.2]⟩
        simp [List.filterMap_cons, h.1]

theorem pass2cli_none_eq (a : Char) (c : Option Color) (g : List (Option Char))
    (fb : List (Char × Option Color)) (t : List (Option Char)) :
    pass2cli (none :: g) ((a, c) :: fb) t = (a, c.getD Color.GREEN) :: pass2cli g fb t := rfl

theorem pass2cli_some_eq (x : Char) (p : Char × Option Color) (g : List (Option Char))
    (fb : List (Char × Option Color)) (t : List (Option Char)) :
    pass2cli (some x :: g) (p :: fb) t =
      if some x ∈ t then (x, Color.YELLOW) :: pass2cli g fb (consume x t)
      else (x, Color.GRAY) :: pass2cli g fb t := rfl

theorem pass2cli_partition {g : List (Option Char)} {fb : List (Char × Option Color)}
    (h : Aligned g fb) : ∀ t : List (Option Char),
    (pass2cli g fb t).filter (fun p => p.2 == Color.GREEN) =
        fb.filterMap (fun p => (p.2).map (fun col => (p.1, col)))
    ∧ (pass2cli g fb t).filter (fun p => !(p.2 == Color.GREEN)) = pass2 g t := by
  induction h with
  | nil => intro t; simp [pass2cli, pass2]
  | green a hsub ih =>
    rename_i g2 fb2
    intro t
    rw [pass2cli_none_eq]
    have hi := ih t
    constructor
    · simp [List.filter_cons, List.filterMap_cons, hi.1]
    · have h2 : pass2 (none :: g2) t = pass2 g2 t := rfl
      simp [List.filter_cons, hi.2, h2]
  | pending a hsub ih =>
    intro t
    rw [pass2cli_some_eq, pass2_some_eq]
    by_cases hm : some a ∈ t
    · rw [if_pos hm, if_pos hm]
      have hi := ih (consume a t)
      constructor
      · simp [List.filter_cons, List.filterMap_cons, hi.1]
      · simp [List.filter_cons, hi.2]
    · rw [if_neg hm, if_neg hm]
      have hi := ih t
      constructor
      · simp [List.filter_cons, List.filterMap_cons, hi.1]
      · simp [List.filter_cons, hi.2]

/-! ### Claims C1, C2, C3, C7, C9 -/

/-- C1: the claim states that a word `w` is never filtered out by the
feedback generated for a guess against `w` itself.  The code violates it:
`_get_feedback` of src/game/wordle_game.py lists exact matches first, while
`_matches_feedback` of src/bot/wordle_bot.py reads the feedback entries
positionally, so for guess CRANE and target SLATE the feedback
`[A:GREEN, E:GREEN, C/R/N:GRAY]` makes the green check compare SLATE[0] with
CRANE[0] and reject SLATE.  This theorem evaluates the code at that failing
input: filtering `{SLATE}` by the feedback for CRANE against SLATE yields
the empty set. -/
theorem c1_true_target_filtered_out :
    filter_words [slateW] craneW (bot_get_feedback craneW slateW) = [] := by decide

/-- C2 counterexample: the claim says feedback is positionally ordered
(entry `i` classifies guess position `i`, GREEN exactly when
`guess[i] = target[i]`) and that CRANE against SLATE yields
`[C:Absent, R:Absent, A:Present, N:Absent, E:Exact]`.  The code returns
neither: its first entry is `(A, GREEN)` although `guess[0] = C` differs from
`target[0] = S`, and the full output differs from the claimed sequence. -/
theorem c2_counterexample :
    get_feedback craneW slateW ≠
      [('C', Color.GRAY), ('R', Color.GRAY), ('A', Color.YELLOW), ('N', Color.GRAY),
        ('E', Color.GREEN)]
    ∧ (get_feedback craneW slateW).getD 0 ('?', Color.GRAY) = ('A', Color.GREEN)
    ∧ craneW.getD 0 '?' ≠ slateW.getD 0 '?' := by
  refine ⟨by decide, by decide, by decide⟩

/-- C2 as amended: the feedback still has one entry per guess position, but
it is ordered with the exact matches first — it equals the positional
exact-match entries (a GREEN pair for every position where guess and target
agree, in position order) followed by the remaining positions, none of which
is marked GREEN; concretely, CRANE against SLATE yields
`[A:Exact, E:Exact, C:Absent, R:Absent, N:Absent]`. -/
theorem c2_feedback_green_fronted :
    (∀ g t : List Char, g.length = 5 → t.length = 5 →
      (get_feedback g t).length = g.length ∧
      ∃ rest, get_feedback g t = zipGreens g t ++ rest ∧ ∀ p ∈ rest, p.2 ≠ Color.GREEN)
    ∧ get_feedback craneW slateW =
        [('A', Color.GREEN), ('E', Color.GREEN), ('C', Color.GRAY), ('R', Color.GRAY),
          ('N', Color.GRAY)] := by
  constructor
  · intro g t hg ht
    constructor
    · have h1 := pass1_length g t
      have h2 := pass2_length (pass1 g t).2.1 (pass1 g t).2.2
      simp only [get_feedback, List.length_append]
      omega
    · refine ⟨pass2 (pass1 g t).2.1 (pass1 g t).2.2, ?_, ?_⟩
      · simp only [get_feedback]
        rw [pass1_greens_zip]
      · intro p hp
        exact pass2_no_green _ _ p hp
  · decide

/-- C2 witness: the amended statement instantiated at guess CRANE, target
SLATE. -/
theorem c2_witness :
    (craneW.length = 5 ∧ slateW.length = 5) ∧
    ((get_feedback craneW slateW).length = craneW.length ∧
      ∃ rest, get_feedback craneW slateW = zipGreens craneW slateW ++ rest ∧
        ∀ p ∈ rest, p.2 ≠ Color.GREEN) :=
  ⟨⟨by decide, by decide⟩, c2_feedback_green_fronted.1 craneW slateW (by decide) (by decide)⟩

/-- C3: the claim states `_filter_words` keeps `w` iff the feedback the
engine computes for `(guess, w)` equals the observed feedback.  The code
violates the right-to-left direction: with guess CRANE, `w` = SLATE and
`f` = the engine's own feedback for (CRANE, SLATE), the equality holds
trivially, yet SLATE is not kept. -/
theorem c3_filter_not_feedback_equality :
    bot_get_feedback craneW slateW = bot_get_feedback craneW slateW
    ∧ slateW ∉ filter_words [slateW] craneW (bot_get_feedback craneW slateW) := by
  refine ⟨rfl, by decide⟩

/-- C7: in the feedback for equal-length 5-letter words, the number of
positions crediting a letter `l` as Exact or Present never exceeds the
number of occurrences of `l` in the target. -/
theorem c7_multiplicity_bound (g t : List Char) (_hg : g.length = 5) (_ht : t.length = 5)
    (l : Char) :
    (get_feedback g t).count (l, Color.GREEN) + (get_feedback g t).count (l, Color.YELLOW)
      ≤ t.count l := by
  have hA := pass1_count l g t
  have hB := pass2_count_yellow l (pass1 g t).2.1 (pass1 g t).2.2
  have hG0 : (pass2 (pass1 g t).2.1 (pass1 g t).2.2).count (l, Color.GREEN) = 0 := by
    refine List.count_eq_zero.mpr ?_
    intro hmem
    exact pass2_no_green _ _ _ hmem rfl
  have hY0 : (pass1 g t).1.count (l, Color.YELLOW) = 0 := by
    refine List.count_eq_zero.mpr ?_
    intro hmem
    have h := pass1_all_green g t _ hmem
    simp at h
  simp only [get_feedback, List.count_append]
  omega

/-- C7 witness: guess SPEED against target ERASE, letter E — two Present
credits against two occurrences of E in ERASE. -/
theorem c7_witness :
    (speedW.length = 5 ∧ eraseW.length = 5) ∧
    (get_feedback speedW eraseW).count ('E', Color.GREEN) +
        (get_feedback speedW eraseW).count ('E', Color.YELLOW) ≤ eraseW.count 'E' :=
  ⟨⟨by decide, by decide⟩, c7_multiplicity_bound speedW eraseW (by decide) (by decide) 'E'⟩

/-- C9 counterexample: the two `_get_feedback` routines do not return
identical sequences — for guess CRANE and target SLATE the
src/game/wordle_game.py routine puts the two GREEN entries first, while the
src/game/wordle.py routine keeps position order. -/
theorem c9_counterexample : get_feedback craneW slateW ≠ get_feedback_cli craneW slateW := by
  decide

/-- C9 as amended: the two routines agree up to stably moving the GREEN
entries to the front — the src/game/wordle_game.py feedback equals the GREEN
entries of the src/game/wordle.py feedback followed by its non-GREEN entries
(so the two agree as multisets, but not as sequences). -/
theorem c9_feedback_agree_up_to_reorder (g t : List Char) (_hg : g.length = 5)
    (_ht : t.length = 5) :
    get_feedback g t =
      (get_feedback_cli g t).filter (fun p => p.2 == Color.GREEN) ++
        (get_feedback_cli g t).filter (fun p => !(p.2 == Color.GREEN)) := by
  have hrel := pass1_eq_cli g t
  have hpart := pass2cli_partition (aligned_pass1cli g t) (pass1cli g t).2.2
  simp only [get_feedback, get_feedback_cli]
  rw [hrel.1, hrel.2.1, hrel.2.2, hpart.1, hpart.2]

/-- C9 witness: the amended statement instantiated at guess CRANE, target
SLATE. -/
theorem c9_witness :
    (craneW.length = 5 ∧ slateW.length = 5) ∧
    get_feedback craneW slateW =
      (get_feedback_cli craneW slateW).filter (fun p => p.2 == Color.GREEN) ++
        (get_feedback_cli craneW slateW).filter (fun p => !(p.2 == Color.GREEN)) :=
  ⟨⟨by decide, by decide⟩,
    c9_feedback_agree_up_to_reorder craneW slateW (by decide) (by decide)⟩

/-! ### The selection loop of `_choose_optimal_guess` -/

theorem dedupFirstAux_cons {α : Type} [DecidableEq α] (seen : List α) (x : α) (l : List α) :
    dedupFirstAux seen (x :: l) =
      if x ∈ seen then dedupFirstAux seen l else x :: dedupFirstAux (x :: seen) l := rfl

theorem scanBest_spec (score : Word → ℚ) : ∀ (cands : List Word) (bw : Word) (bs : ℚ),
    (scanBest score (some (bw, bs)) cands = some (bw, bs) ∧ ∀ w ∈ cands, bs ≤ score w)
    ∨ (∃ g l1 l2, scanBest score (some (bw, bs)) cands = some (g, score g)
        ∧ cands = l1 ++ g :: l2 ∧ score g < bs
        ∧ (∀ w ∈ l1, score g < score w) ∧ (∀ w ∈ l2, score g ≤ score w)) := by
  intro cands
  induction cands with
  | nil => intro bw bs; left; exact ⟨rfl, by simp⟩
  | cons w ws ih =>
    intro bw bs
    by_cases hlt : score w < bs
    · have heq : scanBest score (some (bw, bs)) (w :: ws) =
          scanBest score (some (w, score w)) ws := by
        simp [scanBest, hlt]
      rcases ih w (score w) with ⟨h1, h2⟩ | ⟨g, l1, l2, h1, h2, h3, h4, h5⟩
      · right
        exact ⟨w, [], ws, by rw [heq, h1], rfl, hlt, by simp, h2⟩
      · right
        refine ⟨g, w :: l1, l2, by rw [heq, h1], by simp [h2], lt_trans h3 hlt, ?_, h5⟩
        intro x hx
        rcases List.mem_cons.mp hx with rfl | hx
        · exact h3
        · exact h4 x hx
    · have heq : scanBest score (some (bw, bs)) (w :: ws) =
          scanBest score (some (bw, bs)) ws := by
        simp [scanBest, hlt]
      have hle : bs ≤ score w := not_lt.mp hlt
      rcases ih bw bs with ⟨h1, h2⟩ | ⟨g, l1, l2, h1, h2, h3, h4, h5⟩
      · left
        refine ⟨by rw [heq, h1], ?_⟩
        intro x hx
        rcases List.mem_cons.mp hx with rfl | hx
        · exact hle
        · exact h2 x hx
      · right
        refine ⟨g, w :: l1, l2, by rw [heq, h1], by simp [h2], h3, ?_, h5⟩
        intro x hx
        rcases List.mem_cons.mp hx with rfl | hx
        · exact lt_of_lt_of_le h3 hle
        · exact h4 x hx

theorem scanBest_none_first_min (score : Word → ℚ) (c : Word) (cs : List Word) :
    ∃ g s, scanBest score none (c :: cs) = some (g, s) ∧ IsFirstMin score (c :: cs) g := by
  have heq : scanBest score none (c :: cs) = scanBest score (some (c, score c)) cs := by
    simp [scanBest]
  rcases scanBest_spec score cs c (score c) with ⟨h1, h2⟩ | ⟨g, l1, l2, h1, h2, h3, h4, h5⟩
  · exact ⟨c, score c, by rw [heq, h1], [], cs, rfl, by simp, h2⟩
  · refine ⟨g, score g, by rw [heq, h1], c :: l1, l2, by simp [h2], ?_, h5⟩
    intro x hx
    rcases List.mem_cons.mp hx with rfl | hx
    · exact h3
    · exact h4 x hx

theorem candidatePool_ne_nil (possible valid : List Word) (h : possible ≠ []) :
    candidatePool possible valid ≠ [] := by
  rcases possible with _ | ⟨p, ps⟩
  · exact absurd rfl h
  · unfold candidatePool
    by_cases hle : (p :: ps).length ≤ 2
    · rw [if_pos hle]; exact h
    · rw [if_neg hle]
      rw [show ((p :: ps) ++ valid) = p :: (ps ++ valid) from rfl]
      rw [dedupFirst, dedupFirstAux_cons]
      simp

/-! ### Claims C4, C5, C6 -/

/-- C4: for non-empty `possible_words`, `_choose_optimal_guess` returns the
first element of the candidate pool attaining the smallest score, where the
score is the expected remaining count plus `0.5` for guesses outside
`possible_words`, and the pool is restricted to `possible_words` when at most
two possibilities remain. -/
theorem c4_choose_first_min (possible valid : List Word) (h : possible ≠ []) :
    IsFirstMin (botScore possible) (candidatePool possible valid)
      (choose_optimal_guess possible valid) := by
  by_cases h1 : possible.length = 1
  · rcases List.length_eq_one.mp h1 with ⟨p, rfl⟩
    have hpool : candidatePool [p] valid = [p] := by simp [candidatePool]
    have hch : choose_optimal_guess [p] valid = p := by simp [choose_optimal_guess]
    rw [hpool, hch]
    exact ⟨[], [], rfl, by simp, by simp⟩
  · have hpn := candidatePool_ne_nil possible valid h
    rcases hpool : candidatePool possible valid with _ | ⟨c, cs⟩
    · exact absurd hpool hpn
    · obtain ⟨g, s, hsb, hfm⟩ := scanBest_none_first_min (botScore possible) c cs
      have hch : choose_optimal_guess possible valid = g := by
        unfold choose_optimal_guess
        rw [if_neg h1, hpool, hsb]
      rw [hch]
      exact hfm

/-- C4 witness: with a single possible word the chooser picks it, and it is
the first minimum of the (restricted) pool. -/
theorem c4_witness :
    ([craneW] ≠ ([] : List Word)) ∧
    IsFirstMin (botScore [craneW]) (candidatePool [craneW] [])
      (choose_optimal_guess [craneW] []) :=
  ⟨by decide, c4_choose_first_min [craneW] [] (by decide)⟩

theorem mem_dedupFirstAux {α : Type} [DecidableEq α] (x : α) :
    ∀ (l seen : List α), x ∈ dedupFirstAux seen l ↔ x ∈ l ∧ x ∉ seen := by
  intro l
  induction l with
  | nil => intro seen; simp [dedupFirstAux]
  | cons w ws ih =>
    intro seen
    rw [dedupFirstAux_cons]
    by_cases hw : w ∈ seen
    · rw [if_pos hw, ih seen]
      constructor
      · rintro ⟨h1, h2⟩; exact ⟨List.mem_cons_of_mem w h1, h2⟩
      · rintro ⟨h1, h2⟩
        rcases List.mem_cons.mp h1 with rfl | h1
        · exact absurd hw h2
        · exact ⟨h1, h2⟩
    · rw [if_neg hw, List.mem_cons, ih (w :: seen)]
      constructor
      · rintro (rfl | ⟨h1, h2⟩)
        · exact ⟨List.mem_cons_self _ _, hw⟩
        · exact ⟨List.mem_cons_of_mem w h1, fun hc => h2 (List.mem_cons_of_mem w hc)⟩
      · rintro ⟨h1, h2⟩
        by_cases hxw : x = w
        · exact Or.inl hxw
        · rcases List.mem_cons.mp h1 with rfl | h1
          · exact Or.inl rfl
          · refine Or.inr ⟨h1, ?_⟩
            intro hc
            rcases List.mem_cons.mp hc with h3 | h3
            · exact hxw h3
            · exact h2 h3

theorem nodup_dedupFirstAux {α : Type} [DecidableEq α] :
    ∀ (l seen : List α), (dedupFirstAux seen l).Nodup := by
  intro l
  induction l with
  | nil => intro seen; simp [dedupFirstAux]
  | cons w ws ih =>
    intro seen
    rw [dedupFirstAux_cons]
    by_cases hw : w ∈ seen
    · rw [if_pos hw]; exact ih seen
    · rw [if_neg hw]
      refine List.nodup_cons.mpr ⟨?_, ih (w :: seen)⟩
      intro hc
      exact ((mem_dedupFirstAux w ws (w :: seen)).mp hc).2 (List.mem_cons_self _ _)

theorem mem_dedupFirst {α : Type} [DecidableEq α] (x : α) (l : List α) :
    x ∈ dedupFirst l ↔ x ∈ l := by
  rw [dedupFirst, mem_dedupFirstAux]
  simp

theorem nodup_dedupFirst {α : Type} [DecidableEq α] (l : List α) : (dedupFirst l).Nodup :=
  nodup_dedupFirstAux l []

theorem dedupFirst_map_sum {α : Type} {M : Type} [DecidableEq α] [AddCommMonoid M]
    (l : List α) (h : α → M) :
    ((dedupFirst l).map h).sum = ∑ x ∈ l.toFinset, h x := by
  have h1 : (dedupFirst l).toFinset = l.toFinset := by
    ext x
    simp [List.mem_toFinset, mem_dedupFirst]
  rw [← h1]
  exact (List.sum_toFinset h (nodup_dedupFirst l)).symm

/-- C5: the scorer postconditions — the expected-remaining score is the sum
over feedback buckets of `(c/n) * c`; it is `0` on the empty possible set and
`1` on any singleton, and the entropy of the empty possible set is `0`
(whatever function stands in for `math.log2`). -/
theorem c5_scorer_postconditions :
    (∀ g : Word, calculate_expected_remaining g [] = 0)
    ∧ (∀ g w : Word, calculate_expected_remaining g [w] = 1)
    ∧ (∀ (lg : ℚ → ℚ) (g : Word), calculate_entropy lg g [] = 0)
    ∧ (∀ (g : Word) (S : List Word),
        calculate_expected_remaining g S =
          ∑ f ∈ (S.map (bot_get_feedback g)).toFinset,
            ((S.map (bot_get_feedback g)).count f : ℚ) / (S.length : ℚ) *
              ((S.map (bot_get_feedback g)).count f : ℚ)) := by
  refine ⟨?_, ?_, ?_, ?_⟩
  · intro g; simp [calculate_expected_remaining]
  · intro g w
    simp [calculate_expected_remaining, dedupFirst, dedupFirstAux]
  · intro lg g; simp [calculate_entropy]
  · intro g S
    by_cases hS : S = []
    · subst hS; simp [calculate_expected_remaining]
    · simp only [calculate_expected_remaining]
      rw [if_neg hS]
      exact dedupFirst_map_sum (S.map (bot_get_feedback g)) _

/-- C6: `_filter_words` returns a sublist of its input (hence a subset of no
greater size); the input list itself is untouched — the embedding is pure,
matching the Python, which builds a fresh set and only reads `words`. -/
theorem c6_filter_shrinks (S : List Word) (g : Word) (f : List (Char × Color)) :
    (filter_words S g f).Sublist S ∧ (filter_words S g f).length ≤ S.length :=
  ⟨List.filter_sublist S, List.length_filter_le _ S⟩

/-! ### Claims C8, C10 -/

theorem kb_step_preserves (i : ℕ) (letter : Char) (color : Color) (s : GameState) :
    (kb_step i letter color s).target = s.target
    ∧ (kb_step i letter color s).valid_guesses = s.valid_guesses
    ∧ (kb_step i letter color s).attempts = s.attempts
    ∧ (kb_step i letter color s).max_attempts = s.max_attempts
    ∧ (kb_step i letter color s).all_guesses = s.all_guesses
    ∧ (kb_step i letter color s).won = s.won
    ∧ (kb_step i letter color s).hard_mode = s.hard_mode := by
  simp only [kb_step]
  split_ifs <;> simp

theorem update_kb_preserves : ∀ (fb : List (Char × Color)) (i : ℕ) (s : GameState),
    (update_kb i fb s).target = s.target
    ∧ (update_kb i fb s).valid_guesses = s.valid_guesses
    ∧ (update_kb i fb s).attempts = s.attempts
    ∧ (update_kb i fb s).max_attempts = s.max_attempts
    ∧ (update_kb i fb s).all_guesses = s.all_guesses
    ∧ (update_kb i fb s).won = s.won
    ∧ (update_kb i fb s).hard_mode = s.hard_mode := by
  intro fb
  induction fb with
  | nil => intro i s; simp [update_kb]
  | cons p fb ih =>
    intro i s
    obtain ⟨letter, color⟩ := p
    have hstep := kb_step_preserves i letter color s
    have h := ih (i + 1) (kb_step i letter color s)
    simp only [update_kb]
    exact ⟨h.1.trans hstep.1, (h.2.1).trans hstep.2.1, (h.2.2.1).trans hstep.2.2.1,
      (h.2.2.2.1).trans hstep.2.2.2.1, (h.2.2.2.2.1).trans hstep.2.2.2.2.1,
      (h.2.2.2.2.2.1).trans hstep.2.2.2.2.2.1, (h.2.2.2.2.2.2).trans hstep.2.2.2.2.2.2⟩

theorem make_guess_accept_attempts (s : GameState) (g : List Char) :
    (make_guess_accept s g).attempts = s.attempts + 1 := by
  have h := (update_kb_preserves (get_feedback g s.target) 0
    { s with all_guesses := s.all_guesses ++ [get_feedback g s.target] }).2.2.1
  simp only [make_guess_accept]
  by_cases hwin : g = s.target
  · rw [if_pos hwin]
    simpa using h
  · rw [if_neg hwin]
    simpa using h

theorem make_guess_accept_all_guesses (s : GameState) (g : List Char) :
    (make_guess_accept s g).all_guesses = s.all_guesses ++ [get_feedback g s.target] := by
  have h := (update_kb_preserves (get_feedback g s.target) 0
    { s with all_guesses := s.all_guesses ++ [get_feedback g s.target] }).2.2.2.2.1
  simp only [make_guess_accept]
  by_cases hwin : g = s.target
  · rw [if_pos hwin]
    simpa using h
  · rw [if_neg hwin]
    simpa using h

/-- C10: `make_guess` is atomic on rejection — returning `False` leaves the
whole state (attempts, all_guesses, guessed_letters, won and the hard-mode
constraint fields alike) untouched — and an accepted guess bumps `attempts`
by exactly one and appends exactly one feedback row to `all_guesses`. -/
theorem c10_make_guess_atomic (s : GameState) (g : List Char) :
    ((make_guess s g).1 = false → (make_guess s g).2 = s)
    ∧ ((make_guess s g).1 = true →
        (make_guess s g).2.attempts = s.attempts + 1
        ∧ ∃ fb, (make_guess s g).2.all_guesses = s.all_guesses ++ [fb]) := by
  by_cases hv : is_valid_guess s (upperW (py_strip g)) = true
  · have hmk : make_guess s g = (true, make_guess_accept s (upperW (py_strip g))) := by
      simp [make_guess, hv]
    rw [hmk]
    constructor
    · intro hfalse
      simp at hfalse
    · intro _
      exact ⟨make_guess_accept_attempts s (upperW (py_strip g)),
        get_feedback (upperW (py_strip g)) s.target,
        make_guess_accept_all_guesses s (upperW (py_strip g))⟩
  · have hv2 : is_valid_guess s (upperW (py_strip g)) = false :=
      Bool.eq_false_iff.mpr hv
    have hmk : make_guess s g = (false, s) := by
      simp [make_guess, hv2]
    rw [hmk]
    constructor
    · intro _; rfl
    · intro htrue
      simp at htrue

/-- C10 witness: on a game accepting only SLATE and CRANE, guessing SPEED is
rejected and the state is returned unchanged; guessing SLATE is accepted,
bumps `attempts` from 0 to 1 and appends one feedback row. -/
theorem c10_witness :
    ((make_guess smallGame speedW).1 = false ∧ (make_guess smallGame speedW).2 = smallGame)
    ∧ ((make_guess smallGame slateW).1 = true
        ∧ (make_guess smallGame slateW).2.attempts = smallGame.attempts + 1
        ∧ ∃ fb, (make_guess smallGame slateW).2.all_guesses = smallGame.all_guesses ++ [fb]) := by
  have hrej := (c10_make_guess_atomic smallGame speedW).1
  have hacc := (c10_make_guess_atomic smallGame slateW).2
  exact ⟨⟨by decide, hrej (by decide)⟩, ⟨by decide, hacc (by decide)⟩⟩

/-- C8: the claim says a guess rejected by the external game instance must
advance neither the candidate set nor the round counter reported by
`solve_with_game`.  The code violates the counter half: `solve_with_game`
appends the chosen guess to `guesses` *before* calling `game.make_guess`, so
on a fresh game (not over) whose vocabulary rejects the bot's single
candidate SLATE, the guess is rejected (`make_guess` returns `False`, state
unchanged by C10) and yet the reported count is 1 instead of 0. -/
theorem c8_rejected_guess_still_counted :
    is_game_over rejectAllGame = false
    ∧ choose_optimal_guess [slateW] rejectAllGame.valid_guesses = slateW
    ∧ (make_guess rejectAllGame slateW).1 = false
    ∧ solve_with_game 6 [slateW] rejectAllGame = 1 := by
  refine ⟨by decide, by decide, by decide, by decide⟩

end Wordle
